import Mathlib

/-
Verification of the binance-aggtrades repository: a shallow embedding of
its partitioned trade store (`src/aggtrades_store.py`), its bar aggregator
(`get_net_taker_volume.py`) and its batch orchestrator (`main.py`),
together with proofs about the embedded operations.

Modelling conventions:
* A timestamp is a `Nat` counting seconds since the epoch; the UTC calendar
  date of a timestamp `t` is `t / 86400` (`pandas` `timestamp.dt.date`).
* `price` and `quantity` (float64 in the source) are modelled as exact
  integer arithmetic; every concrete instance appearing in the claims uses
  integral values, and no verified property depends on rounding.
* The filesystem of partition files for one (market_type, symbol) pair is a
  `Store`: a map from date to the optional list of records of that day's
  parquet file, in file row order.  Paths, compression and the advisory
  stats side-files are not modelled: no claim depends on them.
* `pandas` operations are embedded by their documented semantics:
  `DataFrame.groupby(date)` = filtering by date, `drop_duplicates(subset)`
  = keeping the first occurrence of each key, `sort_values("timestamp")` =
  a permutation sorted by the non-strict timestamp order,
  `resample(freq).apply(f)` = generating every bucket from the bucket of
  the smallest timestamp up to the bucket of the largest and calling `f`
  on each bucket's rows, also when a bucket holds zero rows, in which case
  the `iloc[0]` inside `f` raises `IndexError` (modelled as `Except.error`).
-/

/-- One Binance aggregated trade, the row schema of every partition file
(columns `trade_id`, `timestamp`, `price`, `quantity`, `is_buyer_maker`). -/
structure Trade where
  trade_id : Nat
  timestamp : Nat
  price : Int
  quantity : Int
  is_buyer_maker : Bool
deriving Repr, DecidableEq

/-- Seconds in one UTC calendar day. -/
def daySec : Nat := 86400

/-- The UTC calendar date of a trade (`trades_df.timestamp.dt.date`). -/
def tradeDate (t : Trade) : Nat := t.timestamp / daySec

/-- The partition files of one (market type, symbol) pair: for each date,
either `none` (no parquet file for that day) or the file's rows. -/
abbrev Store := Nat → Option (List Trade)

/-- A directory with no partition files. -/
def emptyStore : Store := fun _ => none

/-- Comparison of trades by timestamp, the key of `sort_values("timestamp")`. -/
def tsLe (a b : Trade) : Prop := a.timestamp ≤ b.timestamp

instance : DecidableRel tsLe := fun a b => inferInstanceAs (Decidable (a.timestamp ≤ b.timestamp))

instance : IsTotal Trade tsLe := ⟨fun a b => Nat.le_total a.timestamp b.timestamp⟩

instance : IsTrans Trade tsLe := ⟨fun _ _ _ h h2 => Nat.le_trans h h2⟩

/-- `combined_df.sort_values("timestamp")`: a permutation of the input that
is sorted by non-strict timestamp order. -/
def sortTs (l : List Trade) : List Trade := List.insertionSort tsLe l

/-- Worker for `dedupById`; `seen` holds the trade ids already kept. -/
def dedupByIdAux (seen : List Nat) : List Trade → List Trade
  | [] => []
  | t :: ts =>
    if t.trade_id ∈ seen then dedupByIdAux seen ts
    else t :: dedupByIdAux (t.trade_id :: seen) ts

/-- `drop_duplicates(subset=["trade_id"])` with the default `keep="first"`:
of all rows sharing a trade id, the first occurrence is kept. -/
def dedupById (l : List Trade) : List Trade := dedupByIdAux [] l

/-- The new contents of one partition file inside `write_trades`, given the
current file contents (`none` when the file does not exist) and the day's
group of incoming records: a missing file, or an existing file under
`overwrite=True` (which is unlinked first), receives the group verbatim;
an existing file under `overwrite=False` is read, concatenated
existing-then-new, de-duplicated by trade id and sorted by timestamp. -/
def applyDay (cur : Option (List Trade)) (day : List Trade) (overwrite : Bool) : List Trade :=
  match cur with
  | none => day
  | some existing => if overwrite then day else sortTs (dedupById (existing ++ day))

/-- One iteration of the `write_trades` loop: replace the partition of date
`d` by the merge of its current contents with the day group `day`. -/
def writeDay (st : Store) (d : Nat) (day : List Trade) (overwrite : Bool) : Store :=
  fun e => if e = d then some (applyDay (st d) day overwrite) else st e

/-- The distinct dates of the incoming records, the group keys of
`trades_df.groupby(trades_df.timestamp.dt.date)`. -/
def datesOf (trades : List Trade) : List Nat := (trades.map tradeDate).dedup

/-- `AggTradesStore.write_trades`: a no-op on empty input, otherwise one
`writeDay` per calendar date occurring in the input, each applied to that
date's group of records (in input order). -/
def write_trades (st : Store) (trades : List Trade) (overwrite : Bool) : Store :=
  if trades = [] then st
  else
    (datesOf trades).foldl
      (fun s d => writeDay s d (trades.filter (fun t => tradeDate t == d)) overwrite) st

/-- A sequence of `write_trades` calls, each a pair (records, overwrite
flag), applied in order to an initially empty directory. -/
def writeSeq (ws : List (List Trade × Bool)) : Store :=
  ws.foldl (fun st w => write_trades st w.1 w.2) emptyStore

/-- The exclusive upper bound of the date loop in `read_trades`: the end
date is included exactly when `end_time` has a nonzero time-of-day part. -/
def endDateEx (e : Nat) : Nat := if e % daySec = 0 then e / daySec else e / daySec + 1

/-- The calendar dates visited by the `read_trades` loop:
`start_time.date()` inclusive up to `endDateEx` exclusive. -/
def scannedDates (s e : Nat) : List Nat := List.range' (s / daySec) (endDateEx e - s / daySec)

/-- The half-open interval filter of `read_trades`:
`(df.timestamp >= start_time) & (df.timestamp < end_time)`. -/
def inRange (s e : Nat) (t : Trade) : Bool := decide (s ≤ t.timestamp) && decide (t.timestamp < e)

/-- The contribution of one date to `read_trades`: nothing when the
partition file is absent, otherwise its rows filtered to the interval. -/
def readDay (st : Store) (s e d : Nat) : List Trade :=
  match st d with
  | none => []
  | some content => content.filter (inRange s e)

/-- `AggTradesStore.read_trades`: concatenation, in date order, of every
scanned date's filtered file contents. -/
def read_trades (st : Store) (s e : Nat) : List Trade :=
  ((scannedDates s e).map (readDay st s e)).flatten

/-- One output row of `calculate_net_taker_volume`, keyed by the start of
its resample bucket. -/
structure Bar where
  bucket : Nat
  open_ : Int
  high : Int
  low : Int
  close : Int
  volume : Int
  net_taker_volume : Int
deriving Repr, DecidableEq

/-- The start of the resample bucket containing timestamp `ts` at bucket
width `freq` seconds.  Buckets are aligned to the epoch, which agrees with
the `pandas` default `origin="start_day"` for every frequency of the
`ResampleFrequency` enum, since each of them divides one day. -/
def bucketOf (freq ts : Nat) : Nat := ts / freq * freq

/-- The rows of one resample bucket, in input order. -/
def bucketTrades (trades : List Trade) (freq b : Nat) : List Trade :=
  trades.filter (fun t => bucketOf freq t.timestamp == b)

/-- Sum of the `quantity` column (`df["quantity"].sum()`). -/
def sumQ (l : List Trade) : Int := (l.map Trade.quantity).sum

/-- `df.query("is_buyer_maker == False")["quantity"].sum()`: aggressive
market buys. -/
def takerBuyVolume (l : List Trade) : Int := sumQ (l.filter (fun t => !t.is_buyer_maker))

/-- `df.query("is_buyer_maker == True")["quantity"].sum()`: aggressive
market sells. -/
def takerSellVolume (l : List Trade) : Int := sumQ (l.filter (fun t => t.is_buyer_maker))

/-- `df["price"].iloc[-1]` on a nonempty frame `t :: ts`. -/
def lastPrice (t : Trade) (ts : List Trade) : Int := ts.foldl (fun _ x => x.price) t.price

/-- The `_resample` closure of `calculate_net_taker_volume` applied to one
bucket's rows: `none` models the `IndexError` that `df["price"].iloc[0]`
raises on an empty bucket; on a nonempty bucket it builds the OHLC /
volume / net-taker-volume row. -/
def mkBar (b : Nat) : List Trade → Option Bar
  | [] => none
  | t :: ts =>
    some
      { bucket := b
        open_ := t.price
        high := ts.foldl (fun m x => max m x.price) t.price
        low := ts.foldl (fun m x => min m x.price) t.price
        close := lastPrice t ts
        volume := sumQ (t :: ts)
        net_taker_volume := takerBuyVolume (t :: ts) - takerSellVolume (t :: ts) }

/-- Smallest timestamp of a trade list (0 on the empty list, unused). -/
def minTs : List Trade → Nat
  | [] => 0
  | t :: ts => ts.foldl (fun m x => min m x.timestamp) t.timestamp

/-- Largest timestamp of a trade list (0 on the empty list, unused). -/
def maxTs : List Trade → Nat
  | [] => 0
  | t :: ts => ts.foldl (fun m x => max m x.timestamp) t.timestamp

/-- The buckets generated by `resample(freq)`: every bucket start from the
bucket of the smallest timestamp to the bucket of the largest, inclusive,
also the buckets in between that hold no row. -/
def binStarts (trades : List Trade) (freq : Nat) : List Nat :=
  match trades with
  | [] => []
  | t :: ts =>
    let lo := bucketOf freq (minTs (t :: ts))
    let hi := bucketOf freq (maxTs (t :: ts))
    List.range' lo ((hi - lo) / freq + 1) freq

/-- `resample(freq).apply(_resample)` over a given bucket list: applies
`mkBar` to each bucket in order and propagates the `IndexError` of the
first empty bucket. -/
def barsOfBins (trades : List Trade) (freq : Nat) : List Nat → Except String (List Bar)
  | [] => Except.ok []
  | b :: bs =>
    match mkBar b (bucketTrades trades freq b) with
    | none => Except.error "IndexError: single positional indexer is out-of-bounds"
    | some bar =>
      match barsOfBins trades freq bs with
      | Except.error m => Except.error m
      | Except.ok bars => Except.ok (bar :: bars)

/-- `calculate_net_taker_volume` from `get_net_taker_volume.py`:
`trades.set_index("timestamp").resample(frequency.value).apply(_resample)`. -/
def calculate_net_taker_volume (trades : List Trade) (freq : Nat) : Except String (List Bar) :=
  barsOfBins trades freq (binStarts trades freq)

/-- The environment of one (symbol, date) download task of `main.py`: the
outcome of `fetcher.fetch_daily_trades` and, when a write is attempted,
whether the write raises. -/
structure DayTask where
  fetched : Except String (List Trade)
  writeOutcome : Except String Unit

/-- Whether `process_single_day` reports this task as a success: a failed
fetch or a failed write is a failure; a fetch of zero records is a
success (a skip). -/
def taskSuccess (tk : DayTask) : Bool :=
  match tk.fetched with
  | Except.error _ => false
  | Except.ok trades =>
    if trades = [] then true
    else
      match tk.writeOutcome with
      | Except.error _ => false
      | Except.ok _ => true

/-- The message `process_single_day` returns for this task. -/
def taskMessage (tk : DayTask) : String :=
  match tk.fetched with
  | Except.error m => "error: download failed: " ++ m
  | Except.ok trades =>
    if trades = [] then "warning: no trade data"
    else
      match tk.writeOutcome with
      | Except.error m => "error: download failed: " ++ m
      | Except.ok _ => "data saved"

/-- `process_single_day` of `main.py`: fetch, skip with success on zero
records, otherwise write via the store; any raise is caught and turned
into a `(False, message)` result.  Returns the `(success, message)` pair
and the store left behind. -/
def process_single_day (tk : DayTask) (ov : Bool) (st : Store) : (Bool × String) × Store :=
  match tk.fetched with
  | Except.error m => ((false, "error: download failed: " ++ m), st)
  | Except.ok trades =>
    if trades = [] then ((true, "warning: no trade data"), st)
    else
      match tk.writeOutcome with
      | Except.error m => ((false, "error: download failed: " ++ m), st)
      | Except.ok _ => ((true, "data saved"), write_trades st trades ov)

/-- The `download` command of `main.py`, restricted to its core effect:
run every scheduled task, thread the store through the writes, and collect
the message of every failed task into the final error summary. -/
def download (tasks : List DayTask) (ov : Bool) (st : Store) : List String × Store :=
  tasks.foldl
    (fun acc tk =>
      let r := process_single_day tk ov acc.2
      (if r.1.1 then acc.1 else acc.1 ++ [r.1.2], r.2))
    ([], st)

/-- Uniqueness by `trade_id` within one record list. -/
def uniqueById (l : List Trade) : Prop := (l.map Trade.trade_id).Nodup

/-- Ascending (non-strict) timestamp order within one record list. -/
def sortedTs (l : List Trade) : Prop := List.Sorted tsLe l

/-- The partition-file invariant of the spec: unique by trade id and
sorted ascending by timestamp. -/
def wellFormed (l : List Trade) : Prop := uniqueById l ∧ sortedTs l

instance (l : List Trade) : Decidable (uniqueById l) :=
  inferInstanceAs (Decidable (l.map Trade.trade_id).Nodup)

instance (l : List Trade) : Decidable (sortedTs l) :=
  inferInstanceAs (Decidable (List.Sorted tsLe l))

instance (l : List Trade) : Decidable (wellFormed l) :=
  inferInstanceAs (Decidable (_ ∧ _))

/-- Every partition a store can reach holds only records of its own date. -/
def dateConsistent (st : Store) : Prop :=
  ∀ d c, st d = some c → ∀ t ∈ c, tradeDate t = d

/-- Two incoming records sharing one trade id, in descending timestamp
order; written to a fresh file they land verbatim. -/
def cxA : Trade := ⟨5, 20, 1, 1, false⟩

/-- See `cxA`: same trade id, earlier timestamp. -/
def cxB : Trade := ⟨5, 10, 1, 1, false⟩

/-- An existing partition row with trade id 1 and price 100. -/
def cxE : Trade := ⟨1, 100, 100, 1, false⟩

/-- An incoming record with the same trade id as `cxE` but price 200. -/
def cxN : Trade := ⟨1, 100, 200, 1, false⟩

/-- A store whose date-0 partition holds exactly `cxE`. -/
def cxStore : Store := fun d => if d = 0 then some [cxE] else none

/-- A trade at 00:00:00, one bucket before `gapT2` leaves an empty hour. -/
def gapT1 : Trade := ⟨1, 0, 100, 1, false⟩

/-- A trade at 02:00:00: the 01:00 hourly bucket holds zero trades. -/
def gapT2 : Trade := ⟨2, 7200, 99, 1, true⟩

/-- Trade at 10:00:00, price 100, quantity 1, taker buy. -/
def aggT1 : Trade := ⟨1, 36000, 100, 1, false⟩

/-- Trade at 10:15:00, price 101, quantity 2, taker buy. -/
def aggT2 : Trade := ⟨2, 36900, 101, 2, false⟩

/-- Trade at 10:45:00, price 99, quantity 1, taker sell. -/
def aggT3 : Trade := ⟨3, 38700, 99, 1, true⟩

/-- The single expected hourly bar for `aggT1`, `aggT2`, `aggT3`. -/
def aggBar : Bar := ⟨36000, 100, 101, 99, 99, 4, 2⟩

/-- A date-0 record with trade id 10, used as record set A. -/
def wA : Trade := ⟨10, 50, 7, 2, false⟩

/-- A date-0 record overlapping `wA`'s trade id, used in record set B. -/
def wB1 : Trade := ⟨10, 40, 8, 3, true⟩

/-- A date-0 record with a fresh trade id, used in record set B. -/
def wB2 : Trade := ⟨11, 60, 9, 1, false⟩

/-- A task whose fetch returns zero records. -/
def taskOkEmpty : DayTask := ⟨Except.ok [], Except.ok ()⟩

/-- A task whose fetch raises. -/
def taskFail : DayTask := ⟨Except.error "net down", Except.ok ()⟩

/-- A task that fetches one record and writes it successfully. -/
def taskOkWrite : DayTask := ⟨Except.ok [wA], Except.ok ()⟩

theorem applyDay_true (cur : Option (List Trade)) (day : List Trade) :
    applyDay cur day true = day := by
  cases cur <;> simp [applyDay]

theorem foldl_writeDay (L : List Nat) (f : Nat → List Trade) (ov : Bool) :
    ∀ (st : Store) (d : Nat), L.Nodup →
      (L.foldl (fun s x => writeDay s x (f x) ov) st) d
        = if d ∈ L then some (applyDay (st d) (f d) ov) else st d := by
  induction L with
  | nil => intro st d _; simp
  | cons a L ih =>
    intro st d hN
    rcases List.nodup_cons.mp hN with ⟨ha, hL⟩
    rw [List.foldl_cons, ih _ d hL]
    by_cases hdL : d ∈ L
    · have hda : d ≠ a := fun h => ha (h ▸ hdL)
      simp [hdL, hda, writeDay]
    · by_cases hda : d = a
      · subst hda
        simp [hdL, writeDay]
      · simp [hdL, hda, writeDay]

theorem write_trades_apply (st : Store) (trades : List Trade) (ov : Bool) (d : Nat) :
    write_trades st trades ov d =
      if d ∈ datesOf trades
      then some (applyDay (st d) (trades.filter (fun t => tradeDate t == d)) ov)
      else st d := by
  unfold write_trades
  by_cases h : trades = []
  · subst h; simp [datesOf]
  · rw [if_neg h]
    exact foldl_writeDay (datesOf trades) _ ov st d (List.nodup_dedup _)

theorem mem_datesOf (trades : List Trade) (d : Nat) :
    d ∈ datesOf trades ↔ ∃ t ∈ trades, tradeDate t = d := by
  simp [datesOf, List.mem_dedup, List.mem_map]

theorem filter_date_eq_self (l : List Trade) (d : Nat) (h : ∀ t ∈ l, tradeDate t = d) :
    l.filter (fun t => tradeDate t == d) = l :=
  List.filter_eq_self.mpr fun t ht => beq_iff_eq.mpr (h t ht)

theorem sortTs_perm (l : List Trade) : (sortTs l).Perm l :=
  List.perm_insertionSort tsLe l

theorem sortTs_sorted (l : List Trade) : sortedTs (sortTs l) :=
  List.sorted_insertionSort tsLe l

theorem mem_of_mem_dedupByIdAux :
    ∀ (l : List Trade) (seen : List Nat) (x : Trade), x ∈ dedupByIdAux seen l → x ∈ l := by
  intro l
  induction l with
  | nil => intro seen x h; simp [dedupByIdAux] at h
  | cons t ts ih =>
    intro seen x h
    by_cases hm : t.trade_id ∈ seen
    · simp only [dedupByIdAux, if_pos hm] at h
      exact List.mem_cons_of_mem _ (ih _ x h)
    · simp only [dedupByIdAux, if_neg hm, List.mem_cons] at h
      rcases h with h | h
      · exact h ▸ List.mem_cons_self _ _
      · exact List.mem_cons_of_mem _ (ih _ x h)

theorem dedupByIdAux_nodup :
    ∀ (l : List Trade) (seen : List Nat),
      ((dedupByIdAux seen l).map Trade.trade_id).Nodup
        ∧ ∀ x ∈ dedupByIdAux seen l, x.trade_id ∉ seen := by
  intro l
  induction l with
  | nil => intro seen; simp [dedupByIdAux]
  | cons t ts ih =>
    intro seen
    by_cases hm : t.trade_id ∈ seen
    · simpa [dedupByIdAux, if_pos hm] using ih seen
    · rcases ih (t.trade_id :: seen) with ⟨hnd, hseen⟩
      refine ⟨?_, ?_⟩
      · simp only [dedupByIdAux, if_neg hm, List.map_cons, List.nodup_cons]
        refine ⟨?_, hnd⟩
        intro hmem
        rcases List.mem_map.mp hmem with ⟨y, hy, hyid⟩
        exact (hseen y hy) (by rw [hyid]; exact List.mem_cons_self _ _)
      · intro x hx
        simp only [dedupByIdAux, if_neg hm, List.mem_cons] at hx
        rcases hx with rfl | hx
        · exact hm
        · exact fun hc => (hseen x hx) (List.mem_cons_of_mem _ hc)

theorem dedupById_unique (l : List Trade) : uniqueById (dedupById l) :=
  (dedupByIdAux_nodup l []).1

theorem mem_map_id_dedupByIdAux :
    ∀ (l : List Trade) (seen : List Nat) (i : Nat),
      i ∈ (dedupByIdAux seen l).map Trade.trade_id
        ↔ i ∈ l.map Trade.trade_id ∧ i ∉ seen := by
  intro l
  induction l with
  | nil => intro seen i; simp [dedupByIdAux]
  | cons t ts ih =>
    intro seen i
    by_cases hm : t.trade_id ∈ seen
    · rw [dedupByIdAux, if_pos hm, ih]
      constructor
      · rintro ⟨h1, h2⟩
        exact ⟨by simp [List.mem_cons]; right; simpa using h1, h2⟩
      · rintro ⟨h1, h2⟩
        simp only [List.map_cons, List.mem_cons] at h1
        rcases h1 with rfl | h1
        · exact absurd hm h2
        · exact ⟨by simpa using h1, h2⟩
    · rw [dedupByIdAux, if_neg hm]
      simp only [List.map_cons, List.mem_cons, ih, List.mem_cons]
      constructor
      · rintro (rfl | ⟨h1, h2⟩)
        · exact ⟨Or.inl rfl, hm⟩
        · exact ⟨Or.inr h1, fun hc => h2 (Or.inr hc)⟩
      · rintro ⟨rfl | h1, h2⟩
        · exact Or.inl rfl
        · by_cases hit : i = t.trade_id
          · exact Or.inl hit
          · exact Or.inr ⟨h1, fun hc => by
              rcases hc with hc | hc
              · exact hit hc
              · exact h2 hc⟩

theorem prefix_mem_dedupByIdAux :
    ∀ (ex : List Trade) (rest : List Trade) (seen : List Nat),
      (ex.map Trade.trade_id).Nodup → (∀ e ∈ ex, e.trade_id ∉ seen) →
      ∀ e ∈ ex, e ∈ dedupByIdAux seen (ex ++ rest) := by
  intro ex
  induction ex with
  | nil => intro rest seen _ _ e he; simp at he
  | cons a ex ih =>
    intro rest seen hN hseen e he
    have ha : a.trade_id ∉ seen := hseen a (List.mem_cons_self _ _)
    have hN2 : (∀ x ∈ ex, ¬x.trade_id = a.trade_id) ∧ (ex.map Trade.trade_id).Nodup := by
      simpa using hN
    rw [List.cons_append, dedupByIdAux, if_neg ha]
    rcases List.mem_cons.mp he with rfl | he
    · exact List.mem_cons_self _ _
    · refine List.mem_cons_of_mem _ (ih rest (a.trade_id :: seen) hN2.2 ?_ e he)
      intro x hx hc
      rcases List.mem_cons.mp hc with hxa | hxs
      · exact hN2.1 x hx hxa
      · exact hseen x (List.mem_cons_of_mem _ hx) hxs

theorem uniqueById_of_perm {l₁ l₂ : List Trade} (h : l₁.Perm l₂) (hu : uniqueById l₂) :
    uniqueById l₁ :=
  ((h.map Trade.trade_id).nodup_iff).mpr hu

theorem uniqueById_filter (l : List Trade) (p : Trade → Bool) (hu : uniqueById l) :
    uniqueById (l.filter p) :=
  hu.sublist ((List.filter_sublist l).map Trade.trade_id)

theorem sortedTs_filter (l : List Trade) (p : Trade → Bool) (hs : sortedTs l) :
    sortedTs (l.filter p) :=
  hs.filter p

theorem wellFormed_merge (ex day : List Trade) : wellFormed (sortTs (dedupById (ex ++ day))) :=
  ⟨uniqueById_of_perm (sortTs_perm _) (dedupById_unique _), sortTs_sorted _⟩

theorem applyDay_wellFormed (cur : Option (List Trade)) (day : List Trade) (ov : Bool)
    (hday : wellFormed day) : wellFormed (applyDay cur day ov) := by
  match cur with
  | none => exact hday
  | some ex =>
    by_cases hov : ov = true
    · subst hov; exact hday
    · rw [Bool.not_eq_true] at hov
      subst hov
      exact wellFormed_merge ex day

theorem write_preserves_wellFormed (st : Store) (trades : List Trade) (ov : Bool)
    (hst : ∀ d c, st d = some c → wellFormed c) (htr : wellFormed trades) :
    ∀ d c, write_trades st trades ov d = some c → wellFormed c := by
  intro d c h
  rw [write_trades_apply] at h
  by_cases hd : d ∈ datesOf trades
  · rw [if_pos hd, Option.some.injEq] at h
    subst h
    exact applyDay_wellFormed _ _ _
      ⟨uniqueById_filter _ _ htr.1, sortedTs_filter _ _ htr.2⟩
  · rw [if_neg hd] at h
    exact hst d c h

theorem writeSeq_wellFormed (ws : List (List Trade × Bool))
    (hwf : ∀ w ∈ ws, wellFormed w.1) :
    ∀ d c, writeSeq ws d = some c → wellFormed c := by
  suffices h : ∀ (ws : List (List Trade × Bool)) (st : Store),
      (∀ d c, st d = some c → wellFormed c) → (∀ w ∈ ws, wellFormed w.1) →
      ∀ d c, (ws.foldl (fun st w => write_trades st w.1 w.2) st) d = some c → wellFormed c by
    exact h ws emptyStore (fun d c hc => by simp [emptyStore] at hc) hwf
  intro ws
  induction ws with
  | nil => intro st hst _; exact hst
  | cons w ws ih =>
    intro st hst hwf2
    rw [List.foldl_cons]
    exact ih _ (write_preserves_wellFormed st w.1 w.2 hst (hwf2 w (List.mem_cons_self _ _)))
      (fun x hx => hwf2 x (List.mem_cons_of_mem _ hx))

theorem mem_applyDay_date (cur : Option (List Trade)) (day : List Trade) (ov : Bool) (d : Nat)
    (hcur : ∀ c, cur = some c → ∀ t ∈ c, tradeDate t = d)
    (hday : ∀ t ∈ day, tradeDate t = d) :
    ∀ t ∈ applyDay cur day ov, tradeDate t = d := by
  match cur with
  | none => exact hday
  | some ex =>
    intro t ht
    by_cases hov : ov = true
    · subst hov; exact hday t ht
    · rw [Bool.not_eq_true] at hov
      subst hov
      simp only [applyDay, if_neg Bool.false_ne_true] at ht
      have ht2 : t ∈ dedupById (ex ++ day) := ((sortTs_perm _).mem_iff).mp ht
      have ht3 : t ∈ ex ++ day := mem_of_mem_dedupByIdAux _ _ _ ht2
      rcases List.mem_append.mp ht3 with h | h
      · exact hcur ex rfl t h
      · exact hday t h

theorem write_preserves_dateConsistent (st : Store) (trades : List Trade) (ov : Bool)
    (hst : dateConsistent st) : dateConsistent (write_trades st trades ov) := by
  intro d c h
  rw [write_trades_apply] at h
  by_cases hd : d ∈ datesOf trades
  · rw [if_pos hd, Option.some.injEq] at h
    subst h
    refine mem_applyDay_date _ _ _ _ (fun c hc => hst d c hc) ?_
    intro t ht
    exact beq_iff_eq.mp ((List.mem_filter.mp ht).2)
  · rw [if_neg hd] at h
    exact hst d c h

theorem writeSeq_dateConsistent (ws : List (List Trade × Bool)) :
    dateConsistent (writeSeq ws) := by
  suffices h : ∀ (ws : List (List Trade × Bool)) (st : Store),
      dateConsistent st →
      dateConsistent (ws.foldl (fun st w => write_trades st w.1 w.2) st) by
    exact h ws emptyStore (fun d c hc => by simp [emptyStore] at hc)
  intro ws
  induction ws with
  | nil => intro st hst; exact hst
  | cons w ws ih =>
    intro st hst
    rw [List.foldl_cons]
    exact ih _ (write_preserves_dateConsistent st w.1 w.2 hst)

theorem mem_read_trades (st : Store) (s e : Nat) (tr : Trade) :
    tr ∈ read_trades st s e
      ↔ ∃ d ∈ scannedDates s e, ∃ c, st d = some c ∧ tr ∈ c ∧ inRange s e tr = true := by
  unfold read_trades
  rw [List.mem_flatten]
  constructor
  · rintro ⟨x, hx, htr⟩
    rcases List.mem_map.mp hx with ⟨d, hd, rfl⟩
    refine ⟨d, hd, ?_⟩
    unfold readDay at htr
    match hst : st d with
    | none => rw [hst] at htr; simp at htr
    | some c =>
      rw [hst] at htr
      exact ⟨c, rfl, (List.mem_filter.mp htr).1, (List.mem_filter.mp htr).2⟩
  · rintro ⟨d, hd, c, hst, htr, hr⟩
    refine ⟨readDay st s e d, List.mem_map_of_mem _ hd, ?_⟩
    unfold readDay
    rw [hst]
    exact List.mem_filter.mpr ⟨htr, hr⟩

theorem mem_scannedDates (s e d : Nat) :
    d ∈ scannedDates s e ↔ s / daySec ≤ d ∧ d < endDateEx e := by
  unfold scannedDates
  rw [List.mem_range'_1]
  omega

theorem tradeDate_mem_scannedDates (s e : Nat) (tr : Trade)
    (hs : s ≤ tr.timestamp) (he : tr.timestamp < e) :
    tradeDate tr ∈ scannedDates s e := by
  rw [mem_scannedDates]
  have hdpos : 0 < daySec := by norm_num [daySec]
  refine ⟨Nat.div_le_div_right hs, ?_⟩
  unfold tradeDate endDateEx
  by_cases hmod : e % daySec = 0
  · rw [if_pos hmod]
    exact Nat.div_lt_div_of_lt_of_dvd (Nat.dvd_of_mod_eq_zero hmod) he
  · rw [if_neg hmod]
    have h2 : tr.timestamp / daySec ≤ e / daySec := Nat.div_le_div_right (Nat.le_of_lt he)
    omega

theorem takerVolumes_split (l : List Trade) :
    takerBuyVolume l + takerSellVolume l = sumQ l := by
  induction l with
  | nil => simp [takerBuyVolume, takerSellVolume, sumQ]
  | cons t ts ih =>
    by_cases hb : t.is_buyer_maker
    · simp [takerBuyVolume, takerSellVolume, sumQ, List.filter_cons, hb] at ih ⊢
      omega
    · rw [Bool.not_eq_true] at hb
      simp [takerBuyVolume, takerSellVolume, sumQ, List.filter_cons, hb] at ih ⊢
      omega

theorem takerBuyVolume_nonneg (l : List Trade) (hq : ∀ t ∈ l, 0 ≤ t.quantity) :
    0 ≤ takerBuyVolume l := by
  refine List.sum_nonneg ?_
  intro x hx
  rcases List.mem_map.mp hx with ⟨t, ht, rfl⟩
  exact hq t (List.mem_of_mem_filter ht)

theorem takerSellVolume_nonneg (l : List Trade) (hq : ∀ t ∈ l, 0 ≤ t.quantity) :
    0 ≤ takerSellVolume l := by
  refine List.sum_nonneg ?_
  intro x hx
  rcases List.mem_map.mp hx with ⟨t, ht, rfl⟩
  exact hq t (List.mem_of_mem_filter ht)

theorem foldl_min_le_init (l : List Int) : ∀ i : Int, List.foldl min i l ≤ i := by
  induction l with
  | nil => intro i; simp
  | cons a l ih =>
    intro i
    rw [List.foldl_cons]
    exact le_trans (ih (min i a)) (min_le_left i a)

theorem foldl_min_le_of_mem (l : List Int) : ∀ (i x : Int), x ∈ l → List.foldl min i l ≤ x := by
  induction l with
  | nil => intro i x hx; simp at hx
  | cons a l ih =>
    intro i x hx
    rw [List.foldl_cons]
    rcases List.mem_cons.mp hx with rfl | hx
    · exact le_trans (foldl_min_le_init l (min i x)) (min_le_right i x)
    · exact ih (min i a) x hx

theorem init_le_foldl_max (l : List Int) : ∀ i : Int, i ≤ List.foldl max i l := by
  induction l with
  | nil => intro i; simp
  | cons a l ih =>
    intro i
    rw [List.foldl_cons]
    exact le_trans (le_max_left i a) (ih (max i a))

theorem mem_le_foldl_max (l : List Int) : ∀ (i x : Int), x ∈ l → x ≤ List.foldl max i l := by
  induction l with
  | nil => intro i x hx; simp at hx
  | cons a l ih =>
    intro i x hx
    rw [List.foldl_cons]
    rcases List.mem_cons.mp hx with rfl | hx
    · exact le_trans (le_max_right i x) (init_le_foldl_max l (max i x))
    · exact ih (max i a) x hx

theorem lastPrice_mem (t : Trade) (ts : List Trade) :
    lastPrice t ts ∈ (t :: ts).map Trade.price := by
  induction ts generalizing t with
  | nil => simp [lastPrice]
  | cons a ts ih =>
    have h : lastPrice t (a :: ts) = lastPrice a ts := by
      simp [lastPrice, List.foldl_cons]
    rw [h]
    rcases List.mem_cons.mp (ih a) with h2 | h2
    · simp [h2]
    · simp only [List.map_cons, List.mem_cons]
      right; right
      simpa using h2

theorem barsOfBins_ok_mem (trades : List Trade) (freq : Nat) :
    ∀ (bins : List Nat) (bars : List Bar), barsOfBins trades freq bins = Except.ok bars →
      ∀ bar ∈ bars, ∃ b ∈ bins, mkBar b (bucketTrades trades freq b) = some bar := by
  intro bins
  induction bins with
  | nil =>
    intro bars h bar hbar
    simp only [barsOfBins, Except.ok.injEq] at h
    subst h
    simp at hbar
  | cons b bs ih =>
    intro bars h bar hbar
    unfold barsOfBins at h
    match hmk : mkBar b (bucketTrades trades freq b) with
    | none => rw [hmk] at h; exact absurd h (by simp)
    | some bar2 =>
      rw [hmk] at h
      match hrec : barsOfBins trades freq bs with
      | Except.error m => rw [hrec] at h; exact absurd h (by simp)
      | Except.ok bars2 =>
        rw [hrec] at h
        simp only [Except.ok.injEq] at h
        subst h
        rcases List.mem_cons.mp hbar with rfl | hbar
        · exact ⟨b, List.mem_cons_self _ _, hmk⟩
        · rcases ih bars2 hrec bar hbar with ⟨b2, hb2, hmk2⟩
          exact ⟨b2, List.mem_cons_of_mem _ hb2, hmk2⟩

theorem process_single_day_fst (tk : DayTask) (ov : Bool) (st : Store) :
    (process_single_day tk ov st).1 = (taskSuccess tk, taskMessage tk) := by
  unfold process_single_day taskSuccess taskMessage
  match tk.fetched with
  | Except.error m => rfl
  | Except.ok trades =>
    by_cases h : trades = []
    · simp [h]
    · match hw : tk.writeOutcome with
      | Except.error m => simp [h, hw]
      | Except.ok _ => simp [h, hw]

theorem download_errors_aux (tasks : List DayTask) (ov : Bool) :
    ∀ (acc : List String) (st : Store),
      (tasks.foldl
        (fun acc tk =>
          let r := process_single_day tk ov acc.2
          (if r.1.1 then acc.1 else acc.1 ++ [r.1.2], r.2))
        (acc, st)).1
      = acc ++ (tasks.filter (fun tk => !taskSuccess tk)).map taskMessage := by
  induction tasks with
  | nil => intro acc st; simp
  | cons tk tasks ih =>
    intro acc st
    rw [List.foldl_cons]
    simp only [process_single_day_fst tk ov st]
    by_cases hs : taskSuccess tk = true
    · rw [ih]
      simp [hs]
    · rw [Bool.not_eq_true] at hs
      rw [ih]
      simp [hs, List.filter_cons]

theorem flatten_map_sublist {α β : Type} (L : List α) (f g : α → List β)
    (h : ∀ a ∈ L, List.Sublist (f a) (g a)) :
    List.Sublist ((L.map f).flatten) ((L.map g).flatten) := by
  induction L with
  | nil => simp
  | cons a L ih =>
    simp only [List.map_cons, List.flatten_cons]
    exact (h a (List.mem_cons_self _ _)).append
      (ih fun x hx => h x (List.mem_cons_of_mem _ hx))

theorem flatten_map_nil {α β : Type} (L : List α) (f : α → List β)
    (h : ∀ a ∈ L, f a = []) : (L.map f).flatten = [] := by
  induction L with
  | nil => simp
  | cons a L ih =>
    simp only [List.map_cons, List.flatten_cons, h a (List.mem_cons_self _ _),
      List.nil_append]
    exact ih fun x hx => h x (List.mem_cons_of_mem _ hx)

/-- Claim C7: writing the same record set twice with `overwrite=true` leaves
every partition, affected or not, with exactly the contents that a single
write produces: the second write unlinks each affected file and rewrites it
with the same day group, and touches nothing else. -/
theorem overwrite_write_idempotent (st : Store) (S : List Trade) (d : Nat) :
    write_trades (write_trades st S true) S true d = write_trades st S true d := by
  by_cases hd : d ∈ datesOf S
  · rw [write_trades_apply (write_trades st S true) S true d, if_pos hd, applyDay_true,
      write_trades_apply st S true d, if_pos hd, applyDay_true]
  · rw [write_trades_apply (write_trades st S true) S true d, if_neg hd]

/-- Claim C6: at 1-hour frequency the three trades at 10:00 (price 100,
qty 1, taker buy), 10:15 (price 101, qty 2, taker buy) and 10:45 (price
99, qty 1, taker sell) produce exactly one bar with open 100, high 101,
low 99, close 99, volume 4 and net taker volume 2. -/
theorem hourly_bar_example :
    calculate_net_taker_volume [aggT1, aggT2, aggT3] 3600 = Except.ok [aggBar] := rfl

/-- Claim C5 (evaluation at the failing input): on two trades two hours
apart at 1-hour frequency, the resampler generates the empty middle bucket
and the per-bucket function indexes `price.iloc[0]` on an empty frame, so
`calculate_net_taker_volume` raises `IndexError` instead of returning a
result that merely omits the empty bucket. -/
theorem gap_bucket_raises :
    calculate_net_taker_volume [gapT1, gapT2] 3600
      = Except.error "IndexError: single positional indexer is out-of-bounds" := rfl

/-- Claim C1 (counterexample): one `write_trades` call on a fresh store
whose two records share trade id 5 and arrive in descending timestamp
order produces a partition file that is neither unique by trade id nor
sorted by timestamp: fresh-file (and overwrite) writes store the day group
verbatim, without de-duplication or sorting. -/
theorem fresh_write_violates_invariant :
    writeSeq [([cxA, cxB], false)] 0 = some [cxA, cxB]
      ∧ ¬ uniqueById [cxA, cxB] ∧ ¬ sortedTs [cxA, cxB] := by
  refine ⟨rfl, ?_, ?_⟩ <;> decide

/-- Claim C2 (counterexample): merging `cxN` (trade id 1, price 200) into a
partition holding `cxE` (trade id 1, price 100) with `overwrite=false`
keeps the existing row `cxE`, not the new row: `drop_duplicates` keeps the
first occurrence in the concatenation order existing-then-new, so the
claim's "last wins" (new record kept) is false. -/
theorem merge_new_row_discarded :
    write_trades cxStore [cxN] false 0 = some [cxE] ∧ cxN ≠ cxE := by
  exact ⟨rfl, by decide⟩

/-- Claim C1 (amended): for every sequence of `write_trades` calls with any
mix of overwrite flags, provided each call's input records are themselves
unique by trade id and sorted ascending by timestamp, every partition file
that exists afterwards is unique by trade id and sorted ascending by
timestamp.  (The unrestricted claim is refuted by
`fresh_write_violates_invariant`: fresh-file and overwrite writes store
the input verbatim.) -/
theorem writes_preserve_invariant (ws : List (List Trade × Bool))
    (hwf : ∀ w ∈ ws, uniqueById w.1 ∧ sortedTs w.1) :
    ∀ d c, writeSeq ws d = some c → uniqueById c ∧ sortedTs c :=
  writeSeq_wellFormed ws hwf

/-- Witness for `writes_preserve_invariant` at a concrete write sequence. -/
theorem writes_preserve_invariant_witness :
    (∀ w ∈ [([wA], false), ([wB1, wB2], true)], uniqueById w.1 ∧ sortedTs w.1)
      ∧ ∀ d c, writeSeq [([wA], false), ([wB1, wB2], true)] d = some c →
          uniqueById c ∧ sortedTs c :=
  ⟨by decide, writes_preserve_invariant [([wA], false), ([wB1, wB2], true)] (by decide)⟩

/-- Claim C2 (amended): when `write_trades` with `overwrite=false` merges
new records into an existing partition that is unique by trade id, the row
kept for a trade id present on both sides is the one from the existing
file, not the new record: "first wins" in the concatenation order
existing-then-new (`drop_duplicates` default `keep="first"`). -/
theorem merge_keeps_existing_row (st : Store) (d : Nat) (ex recs : List Trade)
    (hex : st d = some ex) (hexU : uniqueById ex)
    (hdate : ∀ t ∈ recs, tradeDate t = d) (hne : recs ≠ []) :
    ∃ content, write_trades st recs false d = some content ∧
      (∀ e2 ∈ ex, e2 ∈ content) ∧
      (∀ n ∈ recs, ∀ e2 ∈ ex, n.trade_id = e2.trade_id → n ≠ e2 → n ∉ content) := by
  have hdR : d ∈ datesOf recs := by
    rcases List.exists_mem_of_ne_nil recs hne with ⟨t, ht⟩
    exact (mem_datesOf recs d).mpr ⟨t, ht, hdate t ht⟩
  have h2 : write_trades st recs false d = some (sortTs (dedupById (ex ++ recs))) := by
    rw [write_trades_apply, if_pos hdR, filter_date_eq_self recs d hdate, hex]
    rfl
  have hperm := sortTs_perm (dedupById (ex ++ recs))
  have hcontU : ((sortTs (dedupById (ex ++ recs))).map Trade.trade_id).Nodup :=
    uniqueById_of_perm hperm (dedupById_unique _)
  refine ⟨_, h2, ?_, ?_⟩
  · intro e2 he2
    exact hperm.mem_iff.mpr (prefix_mem_dedupByIdAux ex recs [] hexU (by simp) e2 he2)
  · intro n _ e2 he2 hid hne2 hmem
    have he2c : e2 ∈ sortTs (dedupById (ex ++ recs)) :=
      hperm.mem_iff.mpr (prefix_mem_dedupByIdAux ex recs [] hexU (by simp) e2 he2)
    exact hne2 (List.inj_on_of_nodup_map hcontU hmem he2c hid)

/-- Witness for `merge_keeps_existing_row` at the concrete store holding
`cxE` and the incoming record `cxN`. -/
theorem merge_keeps_existing_row_witness :
    (cxStore 0 = some [cxE] ∧ uniqueById [cxE] ∧ (∀ t ∈ [cxN], tradeDate t = 0)
        ∧ [cxN] ≠ ([] : List Trade))
      ∧ ∃ content, write_trades cxStore [cxN] false 0 = some content ∧
          (∀ e2 ∈ [cxE], e2 ∈ content) ∧
          (∀ n ∈ [cxN], ∀ e2 ∈ [cxE], n.trade_id = e2.trade_id → n ≠ e2 → n ∉ content) :=
  ⟨⟨rfl, by decide, by decide, by decide⟩,
    merge_keeps_existing_row cxStore 0 [cxE] [cxN] rfl (by decide) (by decide) (by decide)⟩

/-- Claim C3: writing nonempty record set A and then nonempty record set B
(trade ids may overlap, both on the same calendar date) with
`overwrite=false` yields a partition whose rows all come from A or B,
whose trade-id set is exactly the union of A's and B's, with no duplicate
trade ids, sorted ascending by timestamp. -/
theorem merge_union_of_writes (A B : List Trade) (d : Nat)
    (hA : ∀ t ∈ A, tradeDate t = d) (hB : ∀ t ∈ B, tradeDate t = d)
    (hA0 : A ≠ []) (hB0 : B ≠ []) :
    ∃ content, write_trades (write_trades emptyStore A false) B false d = some content ∧
      uniqueById content ∧ sortedTs content ∧
      (∀ t ∈ content, t ∈ A ∨ t ∈ B) ∧
      (∀ i : Nat, (∃ t ∈ content, t.trade_id = i)
          ↔ (∃ t ∈ A, t.trade_id = i) ∨ (∃ t ∈ B, t.trade_id = i)) := by
  have hdA : d ∈ datesOf A := by
    rcases List.exists_mem_of_ne_nil A hA0 with ⟨t, ht⟩
    exact (mem_datesOf A d).mpr ⟨t, ht, hA t ht⟩
  have hdB : d ∈ datesOf B := by
    rcases List.exists_mem_of_ne_nil B hB0 with ⟨t, ht⟩
    exact (mem_datesOf B d).mpr ⟨t, ht, hB t ht⟩
  have h1 : write_trades emptyStore A false d = some A := by
    rw [write_trades_apply, if_pos hdA, filter_date_eq_self A d hA]
    rfl
  have h2 : write_trades (write_trades emptyStore A false) B false d
      = some (sortTs (dedupById (A ++ B))) := by
    rw [write_trades_apply, if_pos hdB, filter_date_eq_self B d hB, h1]
    rfl
  have hperm := sortTs_perm (dedupById (A ++ B))
  refine ⟨_, h2, uniqueById_of_perm hperm (dedupById_unique _), sortTs_sorted _, ?_, ?_⟩
  · intro t ht
    exact List.mem_append.mp
      (mem_of_mem_dedupByIdAux _ _ _ (hperm.mem_iff.mp ht))
  · intro i
    have hmm : (∃ t ∈ sortTs (dedupById (A ++ B)), t.trade_id = i)
        ↔ i ∈ (sortTs (dedupById (A ++ B))).map Trade.trade_id := by
      simp [List.mem_map]
    rw [hmm, (hperm.map Trade.trade_id).mem_iff]
    have hd3 := mem_map_id_dedupByIdAux (A ++ B) [] i
    simp only [dedupById] at *
    rw [hd3]
    simp [List.mem_map, List.mem_append]

/-- Witness for `merge_union_of_writes`: A = [wA], B = [wB1, wB2] with
wB1 sharing wA's trade id, all on date 0. -/
theorem merge_union_of_writes_witness :
    ((∀ t ∈ [wA], tradeDate t = 0) ∧ (∀ t ∈ [wB1, wB2], tradeDate t = 0)
        ∧ [wA] ≠ ([] : List Trade) ∧ [wB1, wB2] ≠ ([] : List Trade))
      ∧ ∃ content,
          write_trades (write_trades emptyStore [wA] false) [wB1, wB2] false 0
            = some content ∧
          uniqueById content ∧ sortedTs content ∧
          (∀ t ∈ content, t ∈ [wA] ∨ t ∈ [wB1, wB2]) ∧
          (∀ i : Nat, (∃ t ∈ content, t.trade_id = i)
              ↔ (∃ t ∈ [wA], t.trade_id = i) ∨ (∃ t ∈ [wB1, wB2], t.trade_id = i)) :=
  ⟨⟨by decide, by decide, by decide, by decide⟩,
    merge_union_of_writes [wA] [wB1, wB2] 0 (by decide) (by decide) (by decide) (by decide)⟩

/-- Claim C4: over any store produced by a sequence of writes, a range
read returns a record if and only if the record is stored and its
timestamp lies in the half-open interval, regardless of how the records
are split across daily partitions; and the end date's partition is
consulted exactly when the end time has a nonzero time-of-day part. -/
theorem read_range_exact (ws : List (List Trade × Bool)) (s e : Nat) (hse : s ≤ e) :
    (∀ tr, tr ∈ read_trades (writeSeq ws) s e
        ↔ ((∃ d c, writeSeq ws d = some c ∧ tr ∈ c) ∧ s ≤ tr.timestamp ∧ tr.timestamp < e))
    ∧ (e / daySec ∈ scannedDates s e ↔ e % daySec ≠ 0) := by
  constructor
  · intro tr
    rw [mem_read_trades]
    constructor
    · rintro ⟨d, _, c, hst, htr, hr⟩
      simp only [inRange, Bool.and_eq_true, decide_eq_true_eq] at hr
      exact ⟨⟨d, c, hst, htr⟩, hr⟩
    · rintro ⟨⟨d, c, hst, htr⟩, hs2, he2⟩
      have hdate : tradeDate tr = d := writeSeq_dateConsistent ws d c hst tr htr
      refine ⟨d, ?_, c, hst, htr, ?_⟩
      · rw [← hdate]
        exact tradeDate_mem_scannedDates s e tr hs2 he2
      · simp [inRange, hs2, he2]
  · rw [mem_scannedDates]
    have h1 : s / daySec ≤ e / daySec := Nat.div_le_div_right hse
    unfold endDateEx
    by_cases hmod : e % daySec = 0
    · simp only [hmod, if_true, ne_eq, not_true_eq_false, iff_false]
      omega
    · simp only [hmod, if_false, ne_eq, not_false_eq_true, iff_true]
      omega

/-- Witness for `read_range_exact`: one write of `wA`, read over one day. -/
theorem read_range_exact_witness :
    (0 ≤ daySec)
      ∧ ((∀ tr, tr ∈ read_trades (writeSeq [([wA], false)]) 0 daySec
          ↔ ((∃ d c, writeSeq [([wA], false)] d = some c ∧ tr ∈ c)
              ∧ 0 ≤ tr.timestamp ∧ tr.timestamp < daySec))
        ∧ (daySec / daySec ∈ scannedDates 0 daySec ↔ daySec % daySec ≠ 0)) :=
  ⟨Nat.zero_le daySec, read_range_exact [([wA], false)] 0 daySec (Nat.zero_le daySec)⟩

/-- Claim C8: removing any set of partition files from the scanned range
only removes records from the result of `read_trades` (the read is total:
a missing file is skipped, never an error), and a range in which no
partition file exists reads back as the empty list. -/
theorem read_missing_partitions (st st2 : Store) (s e : Nat)
    (hsub : ∀ d ∈ scannedDates s e, st2 d = st d ∨ st2 d = none) :
    List.Sublist (read_trades st2 s e) (read_trades st s e)
    ∧ ((∀ d ∈ scannedDates s e, st d = none) → read_trades st s e = []) := by
  constructor
  · refine flatten_map_sublist _ _ _ ?_
    intro d hd
    rcases hsub d hd with h | h <;> unfold readDay <;> rw [h]
    exact List.nil_sublist _
  · intro hnone
    refine flatten_map_nil _ _ ?_
    intro d hd
    unfold readDay
    rw [hnone d hd]

/-- Witness for `read_missing_partitions`: a store with a single date-0
file read against the empty store over one day. -/
theorem read_missing_partitions_witness :
    (∀ d ∈ scannedDates 0 daySec, emptyStore d = cxStore d ∨ emptyStore d = none)
      ∧ List.Sublist (read_trades emptyStore 0 daySec) (read_trades cxStore 0 daySec)
      ∧ ((∀ d ∈ scannedDates 0 daySec, cxStore d = none) →
          read_trades cxStore 0 daySec = []) :=
  ⟨fun d _ => Or.inr rfl,
    (read_missing_partitions cxStore emptyStore 0 daySec (fun d _ => Or.inr rfl)).1,
    (read_missing_partitions cxStore emptyStore 0 daySec (fun d _ => Or.inr rfl)).2⟩

/-- Claim C9: in a batch download, the final error summary is exactly the
message of every scheduled task whose fetch or write fails, in schedule
order — one task's failure never prevents the remaining tasks from being
attempted — and a task whose fetch returns zero records is reported as a
success and leaves the store untouched. -/
theorem batch_tasks_isolated (tasks : List DayTask) (ov : Bool) (st : Store) :
    (download tasks ov st).1 = (tasks.filter (fun tk => !taskSuccess tk)).map taskMessage
    ∧ (∀ tk ∈ tasks, tk.fetched = Except.ok [] →
        taskSuccess tk = true ∧ ∀ s2 : Store, (process_single_day tk ov s2).2 = s2) := by
  constructor
  · unfold download
    rw [download_errors_aux]
    simp
  · intro tk _ hf
    refine ⟨by simp [taskSuccess, hf], ?_⟩
    intro s2
    simp [process_single_day, hf]

/-- Witness for `batch_tasks_isolated` at a three-task schedule containing
an empty fetch, a failing fetch and a successful write. -/
theorem batch_tasks_isolated_witness :
    (download [taskOkEmpty, taskFail, taskOkWrite] true emptyStore).1
        = (([taskOkEmpty, taskFail, taskOkWrite].filter
            (fun tk => !taskSuccess tk)).map taskMessage)
      ∧ (∀ tk ∈ [taskOkEmpty, taskFail, taskOkWrite], tk.fetched = Except.ok [] →
          taskSuccess tk = true
            ∧ ∀ s2 : Store, (process_single_day tk true s2).2 = s2) :=
  batch_tasks_isolated [taskOkEmpty, taskFail, taskOkWrite] true emptyStore

/-- Claim C10: every bar produced by `calculate_net_taker_volume` from a
bucket of (nonnegative-quantity) trades satisfies: volume is the sum of
taker-buy and taker-sell volume of its bucket, net taker volume is their
difference, the net taker volume is bounded in absolute value by the
volume, the low is at most both open and close, and the high is at least
both open and close. -/
theorem bar_flow_consistency (trades : List Trade) (freq : Nat) (bars : List Bar) (bar : Bar)
    (hq : ∀ t ∈ trades, 0 ≤ t.quantity)
    (hok : calculate_net_taker_volume trades freq = Except.ok bars)
    (hbar : bar ∈ bars) :
    bar.volume = takerBuyVolume (bucketTrades trades freq bar.bucket)
        + takerSellVolume (bucketTrades trades freq bar.bucket)
    ∧ bar.net_taker_volume = takerBuyVolume (bucketTrades trades freq bar.bucket)
        - takerSellVolume (bucketTrades trades freq bar.bucket)
    ∧ |bar.net_taker_volume| ≤ bar.volume
    ∧ bar.low ≤ min bar.open_ bar.close
    ∧ max bar.open_ bar.close ≤ bar.high := by
  rcases barsOfBins_ok_mem trades freq (binStarts trades freq) bars hok bar hbar
    with ⟨b, _, hmk⟩
  match hbt : bucketTrades trades freq b with
  | [] =>
    rw [hbt] at hmk
    exact absurd hmk (by simp [mkBar])
  | t :: ts =>
    rw [hbt] at hmk
    simp only [mkBar, Option.some.injEq] at hmk
    subst hmk
    have hq2 : ∀ x ∈ t :: ts, 0 ≤ x.quantity := by
      intro x hx
      rw [← hbt] at hx
      exact hq x (List.mem_of_mem_filter hx)
    have hbuy := takerBuyVolume_nonneg (t :: ts) hq2
    have hsell := takerSellVolume_nonneg (t :: ts) hq2
    have hsplit := takerVolumes_split (t :: ts)
    have hlow : ts.foldl (fun m x => min m x.price) t.price
        = (ts.map Trade.price).foldl min t.price := (List.foldl_map _ _ _ _).symm
    have hhigh : ts.foldl (fun m x => max m x.price) t.price
        = (ts.map Trade.price).foldl max t.price := (List.foldl_map _ _ _ _).symm
    have hclose := lastPrice_mem t ts
    simp only [List.map_cons, List.mem_cons] at hclose
    refine ⟨?_, ?_, ?_, ?_, ?_⟩
    · simp only [hbt]
      omega
    · simp only [hbt]
    · simp only
      rw [abs_sub_le_iff]
      omega
    · simp only
      rw [hlow]
      refine le_min ?_ ?_
      · exact foldl_min_le_init _ _
      · rcases hclose with h | h
        · rw [h]
          exact foldl_min_le_init _ _
        · exact foldl_min_le_of_mem _ _ _ h
    · simp only
      rw [hhigh]
      refine max_le ?_ ?_
      · exact init_le_foldl_max _ _
      · rcases hclose with h | h
        · rw [h]
          exact init_le_foldl_max _ _
        · exact mem_le_foldl_max _ _ _ h

/-- Witness for `bar_flow_consistency` at the concrete hourly example. -/
theorem bar_flow_consistency_witness :
    ((∀ t ∈ [aggT1, aggT2, aggT3], 0 ≤ t.quantity)
        ∧ calculate_net_taker_volume [aggT1, aggT2, aggT3] 3600 = Except.ok [aggBar]
        ∧ aggBar ∈ [aggBar])
      ∧ aggBar.volume = takerBuyVolume (bucketTrades [aggT1, aggT2, aggT3] 3600 aggBar.bucket)
            + takerSellVolume (bucketTrades [aggT1, aggT2, aggT3] 3600 aggBar.bucket)
        ∧ aggBar.net_taker_volume
            = takerBuyVolume (bucketTrades [aggT1, aggT2, aggT3] 3600 aggBar.bucket)
              - takerSellVolume (bucketTrades [aggT1, aggT2, aggT3] 3600 aggBar.bucket)
        ∧ |aggBar.net_taker_volume| ≤ aggBar.volume
        ∧ aggBar.low ≤ min aggBar.open_ aggBar.close
        ∧ max aggBar.open_ aggBar.close ≤ aggBar.high :=
  ⟨⟨by decide, rfl, by decide⟩,
    bar_flow_consistency [aggT1, aggT2, aggT3] 3600 [aggBar] aggBar
      (by decide) rfl (by decide)⟩
